import Mathlib

/-!
# Verification of the RBMK fuel-channel configuration script

A shallow embedding of `rbmk_journal.py`, the script that builds an
RBMK-style fuel channel for a Monte Carlo transport solver.  The script's
floating-point arithmetic is modelled over the real numbers; its CSG
regions are modelled as sets of points of `ℝ × ℝ × ℝ`; its straight-line
sequence of file exports and the final solver invocation is modelled as
an event trace.
-/

open Real

namespace RBMK

/-! ## The ring-packing calculation (lines 143-154 of the script) -/

/-- `r_channel = 4.0` (line 144). -/
noncomputable def r_channel : ℝ := 4.0

/-- `r_element = 0.68` (line 145). -/
noncomputable def r_element : ℝ := 0.68

/-- `r_outer = r_channel-r_element` (line 146). -/
noncomputable def r_outer : ℝ := r_channel - r_element

/-- `padding = pi*r_outer/6-2*r_element` (line 148). -/
noncomputable def padding : ℝ := π * r_outer / 6 - 2 * r_element

/-- The argument of the square root on line 149:
`(r_element*2+padding)**2-(r_element+padding)**2`. -/
noncomputable def sqrt_arg : ℝ := (r_element * 2 + padding) ^ 2 - (r_element + padding) ^ 2

/-- `r_inner = r_outer*cos(pi/12)-sqrt((r_element*2+padding)**2-(r_element+padding)**2)`
(line 149). -/
noncomputable def r_inner : ℝ := r_outer * Real.cos (π / 12) - Real.sqrt sqrt_arg

/-- `num_in_rings = [6, 12]` (line 152). -/
def num_in_rings : List ℕ := [6, 12]

/-- `radii = [r_inner, r_outer]` (line 153). -/
noncomputable def radii : List ℝ := [r_inner, r_outer]

/-- `angles = [0, pi/12]` (line 154). -/
noncomputable def angles : List ℝ := [0, π / 12]

/-- Line 148 of the script, generalized over its two inputs:
`padding = pi*r_outer/6-2*r_element`. -/
noncomputable def paddingVariantA (ro re : ℝ) : ℝ := π * ro / 6 - 2 * re

/-- Modelled from the spec: the padding formula of the repository's second,
near-duplicate script, which is not present under `src/`; the spec records
it as `padding = (π/12)·r_outer − r_element`. -/
noncomputable def paddingVariantB (ro re : ℝ) : ℝ := π / 12 * ro - re

/-- The `r_inner` formula exactly as the spec writes it:
`r_outer·cos(π/12) − sqrt((2·r_element + padding)² − (r_element + padding)²)`. -/
noncomputable def r_inner_spec : ℝ :=
  r_outer * Real.cos (π / 12) -
    Real.sqrt ((2 * r_element + padding) ^ 2 - (r_element + padding) ^ 2)

/-! ## Pin placement (lines 156-170) -/

/-- One ring of the placement loop: for `element` in `range n`, the pin
center `(ring_radius*cos(element*theta + theta_0), ring_radius*sin(element*theta + theta_0))`
with `theta = 2*pi/n` (lines 160-163). -/
noncomputable def ringPlacements (R θ₀ : ℝ) (n : ℕ) : List (ℝ × ℝ) :=
  (List.range n).map fun (k : ℕ) =>
    (R * Real.cos (k * (2 * π / n) + θ₀), R * Real.sin (k * (2 * π / n) + θ₀))

/-- All pin centers produced by the double loop of lines 156-163: for
`index` in `range (len num_in_rings)`, a ring of `num_in_rings[index]` pins
of radius `radii[index]` at angular offset `angles[index]`. -/
noncomputable def pinPlacements : List (ℝ × ℝ) :=
  (List.range num_in_rings.length).flatMap fun index =>
    ringPlacements (radii.getD index 0) (angles.getD index 0) (num_in_rings.getD index 0)

/-- `pin.id = (index+1)*100 + element` (line 168). -/
def pinId (index element : ℕ) : ℕ := (index + 1) * 100 + element

/-- The list of all pin ids assigned by the loop, in assignment order. -/
def pinIds : List ℕ :=
  (List.range num_in_rings.length).flatMap fun index =>
    (List.range (num_in_rings.getD index 0)).map (pinId index)

/-! ## CSG regions (surfaces and cells of lines 106-170)

A region is a set of points `(x, y, z)`.  The negative side of a
`ZCylinder(x0, y0, r)` is `(x-x0)² + (y-y0)² < r²`, the positive side its
complement-like outside; the positive side of a `ZPlane(z0)` is `z > z0`. -/

/-- Points strictly inside a Z-axis-aligned cylinder of radius `r` centered
at `(x0, y0)` (the `-cyl` half-space). -/
def zcylNeg (x0 y0 r : ℝ) : Set (ℝ × ℝ × ℝ) :=
  {p | (p.1 - x0) ^ 2 + (p.2.1 - y0) ^ 2 < r ^ 2}

/-- Points strictly outside a Z-axis-aligned cylinder (the `+cyl` half-space). -/
def zcylPos (x0 y0 r : ℝ) : Set (ℝ × ℝ × ℝ) :=
  {p | r ^ 2 < (p.1 - x0) ^ 2 + (p.2.1 - y0) ^ 2}

/-- Points strictly above a `ZPlane(z0)` (the `+plane` half-space). -/
def zplanePos (z0 : ℝ) : Set (ℝ × ℝ × ℝ) := {p | z0 < p.2.2}

/-- Points strictly below a `ZPlane(z0)` (the `-plane` half-space). -/
def zplaneNeg (z0 : ℝ) : Set (ℝ × ℝ × ℝ) := {p | p.2.2 < z0}

/-- The region of the pin cell placed at `(x, y)` (line 166):
`-pin_boundary & +element_min_z & -element_max_z` with
`pin_boundary = ZCylinder(x0=x, y0=y, r=r_element)` and the element
z-planes at ∓364. -/
noncomputable def pinRegion (x y : ℝ) : Set (ℝ × ℝ × ℝ) :=
  zcylNeg x y r_element ∩ zplanePos (-364) ∩ zplaneNeg 364

/-- The channel cell's region before the loop (line 141):
`-channel & +rod_outer_radius & +element_min_z & -element_max_z`, with
`channel = ZCylinder(r=4.5)` and `rod_outer_radius = ZCylinder(r=0.7625)`. -/
noncomputable def channelRegion₀ : Set (ℝ × ℝ × ℝ) :=
  zcylNeg 0 0 4.5 ∩ zcylPos 0 0 0.7625 ∩ zplanePos (-364) ∩ zplaneNeg 364

/-- The channel cell's region after the loop: line 169
(`channel_cell.region &= ~pin.region`) executed once per placed pin. -/
noncomputable def channelRegionFinal : Set (ℝ × ℝ × ℝ) :=
  pinPlacements.foldl (fun reg c => reg ∩ (pinRegion c.1 c.2)ᶜ) channelRegion₀

/-! ## The script's effect trace (lines 36, 188, 213, 215) -/

/-- The externally visible effects of the script, in program order. -/
inductive Event where
  | exportMaterials
  | exportGeometry
  | exportSettings
  | runSolver
  deriving DecidableEq, Repr

/-- The straight-line script performs: `materials_file.export_to_xml()`
(line 36), `geometry.export_to_xml()` (line 188),
`settings_file.export_to_xml()` (line 213), `openmc.run()` (line 215). -/
def scriptTrace : List Event :=
  [Event.exportMaterials, Event.exportGeometry, Event.exportSettings, Event.runSolver]

/-! ## Supporting lemmas -/

lemma r_outer_val : r_outer = 3.32 := by
  unfold r_outer r_channel r_element; norm_num

lemma sqrt_two_lb : 1.414213 < Real.sqrt 2 := by
  rw [Real.lt_sqrt (by norm_num)]; norm_num

lemma sqrt_two_ub : Real.sqrt 2 < 1.414214 := by
  rw [Real.sqrt_lt' (by norm_num)]; norm_num

lemma sqrt_six_lb : 2.449489 < Real.sqrt 6 := by
  rw [Real.lt_sqrt (by norm_num)]; norm_num

lemma sqrt_six_ub : Real.sqrt 6 < 2.449490 := by
  rw [Real.sqrt_lt' (by norm_num)]; norm_num

lemma sqrt_three_ub : Real.sqrt 3 < 1.7320509 := by
  rw [Real.sqrt_lt' (by norm_num)]; norm_num

/-- `cos(π/12) = (√6 + √2)/4`, from the subtraction formula at `π/3 - π/4`. -/
lemma cos_pi_div_twelve_eq : Real.cos (π / 12) = (Real.sqrt 6 + Real.sqrt 2) / 4 := by
  have h12 : (π / 12 : ℝ) = π / 3 - π / 4 := by ring
  have h6 : Real.sqrt 6 = Real.sqrt 3 * Real.sqrt 2 := by
    rw [← Real.sqrt_mul (by norm_num : (0:ℝ) ≤ 3)]; norm_num
  rw [h12, Real.cos_sub, Real.cos_pi_div_three, Real.cos_pi_div_four,
    Real.sin_pi_div_three, Real.sin_pi_div_four, h6]
  ring

lemma cos_pi_div_twelve_lb : 0.965925 < Real.cos (π / 12) := by
  rw [cos_pi_div_twelve_eq]
  have h2 := sqrt_two_lb
  have h6 := sqrt_six_lb
  linarith

lemma cos_pi_div_twelve_ub : Real.cos (π / 12) < 0.965926 := by
  rw [cos_pi_div_twelve_eq]
  have h2 := sqrt_two_ub
  have h6 := sqrt_six_ub
  linarith

lemma padding_lb : 0.378347 < padding := by
  unfold padding r_outer r_channel r_element
  have h := Real.pi_gt_d6
  nlinarith

lemma padding_ub : padding < 0.378349 := by
  unfold padding r_outer r_channel r_element
  have h := Real.pi_lt_d6
  nlinarith

lemma sqrt_arg_lb : 1.901752 < sqrt_arg := by
  unfold sqrt_arg padding r_outer r_channel r_element
  have h := Real.pi_gt_d6
  nlinarith

lemma sqrt_arg_ub : sqrt_arg < 1.901754 := by
  unfold sqrt_arg padding r_outer r_channel r_element
  have h := Real.pi_lt_d6
  nlinarith

lemma sqrt_sqrt_arg_lb : 1.379040 < Real.sqrt sqrt_arg := by
  rw [Real.lt_sqrt (by norm_num)]
  have h := sqrt_arg_lb
  nlinarith

lemma sqrt_sqrt_arg_ub : Real.sqrt sqrt_arg < 1.379042 := by
  rw [Real.sqrt_lt' (by norm_num)]
  have h := sqrt_arg_ub
  nlinarith

lemma r_inner_lb : 1.82 < r_inner := by
  unfold r_inner
  rw [r_outer_val]
  have h1 := cos_pi_div_twelve_lb
  have h2 := sqrt_sqrt_arg_ub
  nlinarith

lemma r_inner_ub : r_inner < 1.83 := by
  unfold r_inner
  rw [r_outer_val]
  have h1 := cos_pi_div_twelve_ub
  have h2 := sqrt_sqrt_arg_lb
  nlinarith

lemma r_element_nonneg : (0 : ℝ) ≤ r_element := by
  rw [show r_element = 0.68 from rfl]; norm_num

/-- The double placement loop is the inner ring of 6 pins followed by the
outer ring of 12 pins. -/
lemma pinPlacements_eq :
    pinPlacements = ringPlacements r_inner 0 6 ++ ringPlacements r_outer (π / 12) 12 := by
  show (List.range 2).flatMap _ = _
  rw [show List.range 2 = [0, 1] from rfl]
  simp [List.flatMap_cons, radii, angles, num_in_rings]

lemma ringPlacements_length (R θ₀ : ℝ) (n : ℕ) : (ringPlacements R θ₀ n).length = n := by
  simp [ringPlacements]

lemma ringPlacements_getD (R θ₀ : ℝ) (n k : ℕ) (h : k < n) :
    (ringPlacements R θ₀ n).getD k (0, 0) =
      (R * Real.cos (k * (2 * π / n) + θ₀), R * Real.sin (k * (2 * π / n) + θ₀)) := by
  unfold ringPlacements
  rw [List.getD_eq_getElem?_getD, List.getElem?_map, List.getElem?_range h]
  rfl

/-- Folding region subtraction over a list of centers is intersection with
the complement of the union of their pin regions. -/
lemma foldl_subtract_eq (l : List (ℝ × ℝ)) (s : Set (ℝ × ℝ × ℝ)) :
    l.foldl (fun reg c => reg ∩ (pinRegion c.1 c.2)ᶜ) s =
      s ∩ (⋃ c ∈ l, pinRegion c.1 c.2)ᶜ := by
  induction l generalizing s with
  | nil => simp
  | cons a t ih =>
    rw [List.foldl_cons, ih]
    ext p
    simp only [Set.mem_inter_iff, Set.mem_compl_iff, Set.mem_iUnion, List.mem_cons,
      exists_prop, not_exists, not_and]
    constructor
    · rintro ⟨⟨hs, ha⟩, ht⟩
      refine ⟨hs, fun c hc => ?_⟩
      rcases hc with rfl | hc
      · exact ha
      · exact ht c hc
    · rintro ⟨hs, h⟩
      exact ⟨⟨hs, h a (Or.inl rfl)⟩, fun c hc => h c (Or.inr hc)⟩

/-- The two padding variants differ by `π·ro/12 - re`. -/
lemma paddingVariants_sub (ro re : ℝ) :
    paddingVariantA ro re - paddingVariantB ro re = π / 12 * ro - re := by
  unfold paddingVariantA paddingVariantB
  ring

/-- Squared distance between two points given in polar form. -/
lemma dist_sq_eq (R₁ R₂ α β : ℝ) :
    (R₁ * Real.cos α - R₂ * Real.cos β) ^ 2 + (R₁ * Real.sin α - R₂ * Real.sin β) ^ 2 =
      R₁ ^ 2 + R₂ ^ 2 - 2 * R₁ * R₂ * Real.cos (α - β) := by
  rw [Real.cos_sub]
  linear_combination R₁ ^ 2 * Real.sin_sq_add_cos_sq α + R₂ ^ 2 * Real.sin_sq_add_cos_sq β

lemma cos_mul_le_of_double_le {n r : ℕ} (h1 : 1 ≤ r) (h2 : 2 * r ≤ n) :
    Real.cos (r * (2 * π / n)) ≤ Real.cos (2 * π / n) := by
  have hn : (0 : ℝ) < n := by exact_mod_cast (show 0 < n by omega)
  have hr1 : (1 : ℝ) ≤ (r : ℝ) := by exact_mod_cast h1
  have h2r : (2 * (r : ℝ)) ≤ (n : ℝ) := by exact_mod_cast h2
  have hθ : (0 : ℝ) ≤ 2 * π / n := by positivity
  apply Real.cos_le_cos_of_nonneg_of_le_pi hθ
  · rw [show (r : ℝ) * (2 * π / n) = 2 * (r : ℝ) * π / n by ring, div_le_iff₀ hn]
    nlinarith [Real.pi_pos]
  · calc 2 * π / n = 1 * (2 * π / n) := by ring
      _ ≤ (r : ℝ) * (2 * π / n) := mul_le_mul_of_nonneg_right hr1 hθ

/-- For `1 ≤ r < n`, the angle `r·(2π/n)` is at least as far from a full
turn as `2π/n`, so its cosine is no larger. -/
lemma cos_mul_le {n r : ℕ} (h1 : 1 ≤ r) (h2 : r < n) :
    Real.cos (r * (2 * π / n)) ≤ Real.cos (2 * π / n) := by
  by_cases h : 2 * r ≤ n
  · exact cos_mul_le_of_double_le h1 h
  · push_neg at h
    have hs1 : 1 ≤ n - r := by omega
    have hs2 : 2 * (n - r) ≤ n := by omega
    have hcast : (r : ℝ) + ((n - r : ℕ) : ℝ) = (n : ℝ) := by
      rw [Nat.cast_sub h2.le]
      ring
    have hn : (0 : ℝ) < n := by exact_mod_cast (show 0 < n by omega)
    have ht : (n : ℝ) * (2 * π / n) = 2 * π := by field_simp
    have key : (r : ℝ) * (2 * π / n) = 2 * π - ((n - r : ℕ) : ℝ) * (2 * π / n) := by
      calc (r : ℝ) * (2 * π / n)
          = ((r : ℝ) + ((n - r : ℕ) : ℝ)) * (2 * π / n) -
              ((n - r : ℕ) : ℝ) * (2 * π / n) := by ring
        _ = 2 * π - ((n - r : ℕ) : ℝ) * (2 * π / n) := by rw [hcast, ht]
    rw [key, Real.cos_two_pi_sub]
    exact cos_mul_le_of_double_le hs1 hs2

/-- Separation of two pins on the same ring, from a lower bound on the
chord at the minimal angular step `2π/n`. -/
lemma ring_sep {R θ₀ : ℝ} {n a b : ℕ} (hab : a < b) (hb : b < n)
    (hbound : (2 * r_element) ^ 2 ≤ 2 * R ^ 2 * (1 - Real.cos (2 * π / n))) :
    2 * r_element ≤ Real.sqrt
      ((R * Real.cos (a * (2 * π / n) + θ₀) - R * Real.cos (b * (2 * π / n) + θ₀)) ^ 2 +
       (R * Real.sin (a * (2 * π / n) + θ₀) - R * Real.sin (b * (2 * π / n) + θ₀)) ^ 2) := by
  rw [Real.le_sqrt (by linarith [r_element_nonneg]) (by positivity), dist_sq_eq]
  have hΔ : (a : ℝ) * (2 * π / n) + θ₀ - ((b : ℝ) * (2 * π / n) + θ₀) =
      -(((b - a : ℕ) : ℝ) * (2 * π / n)) := by
    push_cast [Nat.cast_sub hab.le]
    ring
  rw [hΔ, Real.cos_neg]
  have hcos : Real.cos (((b - a : ℕ) : ℝ) * (2 * π / n)) ≤ Real.cos (2 * π / n) :=
    cos_mul_le (by omega) (by omega)
  nlinarith [mul_le_mul_of_nonneg_left hcos (sq_nonneg R)]

/-- Separation of two pins on different rings, from the gap between the
ring radii alone. -/
lemma cross_sep {R₁ R₂ α β : ℝ} (hR₁ : 0 ≤ R₁) (hgap : 2 * r_element ≤ R₂ - R₁) :
    2 * r_element ≤ Real.sqrt
      ((R₁ * Real.cos α - R₂ * Real.cos β) ^ 2 + (R₁ * Real.sin α - R₂ * Real.sin β) ^ 2) := by
  have he := r_element_nonneg
  have hR₂ : (0 : ℝ) ≤ R₂ := by linarith
  rw [Real.le_sqrt (by linarith) (by positivity), dist_sq_eq]
  have hc := Real.cos_le_one (α - β)
  nlinarith [mul_le_mul_of_nonneg_left hc (mul_nonneg hR₁ hR₂)]

/-- All pins of one ring are pairwise separated by `2·r_element`, given the
chord bound at the minimal angular step. -/
lemma pairwise_ring (R θ₀ : ℝ) (n : ℕ)
    (hbound : (2 * r_element) ^ 2 ≤ 2 * R ^ 2 * (1 - Real.cos (2 * π / n))) :
    (ringPlacements R θ₀ n).Pairwise fun p q =>
      2 * r_element ≤ Real.sqrt ((p.1 - q.1) ^ 2 + (p.2 - q.2) ^ 2) := by
  rw [List.pairwise_iff_getElem]
  intro i j hi hj hij
  have hi' : i < n := by simpa [ringPlacements] using hi
  have hj' : j < n := by simpa [ringPlacements] using hj
  simp only [ringPlacements, List.getElem_map, List.getElem_range]
  exact ring_sep hij hj' hbound

/-- The norm of a point in polar form. -/
lemma polar_norm (R θ : ℝ) (hR : 0 ≤ R) :
    Real.sqrt ((R * Real.cos θ) ^ 2 + (R * Real.sin θ) ^ 2) = R := by
  have h : (R * Real.cos θ) ^ 2 + (R * Real.sin θ) ^ 2 = R ^ 2 := by
    linear_combination R ^ 2 * Real.sin_sq_add_cos_sq θ
  rw [h, Real.sqrt_sq hR]

lemma inner_ring_bound :
    (2 * r_element) ^ 2 ≤ 2 * r_inner ^ 2 * (1 - Real.cos (2 * π / (6 : ℕ))) := by
  have h6 : (2 * π / ((6 : ℕ) : ℝ)) = π / 3 := by push_cast; ring
  rw [h6, Real.cos_pi_div_three, show r_element = 0.68 from rfl]
  nlinarith [r_inner_lb]

lemma outer_ring_bound :
    (2 * r_element) ^ 2 ≤ 2 * r_outer ^ 2 * (1 - Real.cos (2 * π / (12 : ℕ))) := by
  have h12 : (2 * π / ((12 : ℕ) : ℝ)) = π / 6 := by push_cast; ring
  rw [h12, Real.cos_pi_div_six, r_outer_val, show r_element = 0.68 from rfl]
  nlinarith [sqrt_three_ub, Real.sqrt_nonneg 3]

/-! ## Claims -/

/-- C4: the outer ring radius equals the channel radius minus the element
radius, and with the script's `r_channel = 4.0`, `r_element = 0.68` its
value is `3.32`. -/
theorem C4_router : r_outer = r_channel - r_element ∧ r_channel = 4.0 ∧
    r_element = 0.68 ∧ r_outer = 3.32 :=
  ⟨rfl, rfl, rfl, r_outer_val⟩

/-- C3: the inner ring radius computed by the script equals
`r_outer·cos(π/12) − sqrt((2·r_element + padding)² − (r_element + padding)²)`,
with `r_outer` and `padding` the previously computed values. -/
theorem C3_rinner_formula : r_inner = r_inner_spec := by
  unfold r_inner r_inner_spec sqrt_arg
  ring_nf

/-- C7: the script exports materials, geometry and settings each exactly
once and invokes the solver's run entry point exactly once, after all
three exports. -/
theorem C7_trace : scriptTrace.count Event.exportMaterials = 1 ∧
    scriptTrace.count Event.exportGeometry = 1 ∧
    scriptTrace.count Event.exportSettings = 1 ∧
    scriptTrace.count Event.runSolver = 1 ∧
    scriptTrace.indexOf Event.exportMaterials < scriptTrace.indexOf Event.runSolver ∧
    scriptTrace.indexOf Event.exportGeometry < scriptTrace.indexOf Event.runSolver ∧
    scriptTrace.indexOf Event.exportSettings < scriptTrace.indexOf Event.runSolver := by
  decide

/-- C9: the pin ids `(ring_index+1)·100 + element_index` are pairwise
distinct across the 18 pins: `100..105` on the inner ring and `200..211`
on the outer ring. -/
theorem C9_ids : pinIds.Nodup ∧
    pinIds = [100, 101, 102, 103, 104, 105,
              200, 201, 202, 203, 204, 205, 206, 207, 208, 209, 210, 211] := by
  decide

/-- C2 counterexample: the two padding variants coincide at the input
`r_outer = 12`, `r_element = π`, even though `r_element ≠ 0` there — so it
is not the case that the formulas agree only when `r_element = 0`. -/
theorem C2_counterexample :
    paddingVariantA 12 π = paddingVariantB 12 π ∧ (π : ℝ) ≠ 0 := by
  constructor
  · unfold paddingVariantA paddingVariantB; ring
  · exact Real.pi_ne_zero

/-- C2 (amended): the script's padding equals `π·r_outer/6 − 2·r_element`;
the two variant formulas coincide exactly on the inputs with
`r_element = (π/12)·r_outer`, and in particular they disagree at this
script's values `r_outer = 3.32`, `r_element = 0.68`. -/
theorem C2_padding :
    padding = π * r_outer / 6 - 2 * r_element ∧
    (∀ ro re : ℝ, paddingVariantA ro re = paddingVariantB ro re ↔ re = π / 12 * ro) ∧
    paddingVariantA r_outer r_element ≠ paddingVariantB r_outer r_element := by
  refine ⟨rfl, fun ro re => ?_, fun h => ?_⟩
  · rw [← sub_eq_zero, paddingVariants_sub, sub_eq_zero, eq_comm]
  · rw [← sub_eq_zero, paddingVariants_sub, sub_eq_zero, r_outer_val] at h
    have hπ := Real.pi_gt_three
    rw [show r_element = 0.68 from rfl] at h
    nlinarith

/-- C8: the argument of the square root in the `r_inner` formula equals
`r_element·(3·r_element + 2·padding)` and is strictly positive at the
script's values (and the padding itself is positive), so the square root
is taken of a positive number and `r_inner` is a positive real. -/
theorem C8_sqrt_arg : sqrt_arg = r_element * (3 * r_element + 2 * padding) ∧
    0 < padding ∧ 0 < sqrt_arg ∧ 0 < r_inner := by
  refine ⟨?_, ?_, ?_, ?_⟩
  · unfold sqrt_arg; ring
  · linarith [padding_lb]
  · linarith [sqrt_arg_lb]
  · linarith [r_inner_lb]

/-- C5: pin `k` of a ring with `n` pins, radius `R` and offset `θ₀` is
placed at `(R·cos(k·(2π/n) + θ₀), R·sin(k·(2π/n) + θ₀))`; each ring yields
exactly `n` placements and the rings `[6, 12]` yield 18 placements in
total. -/
theorem C5_placements :
    pinPlacements = ringPlacements r_inner 0 6 ++ ringPlacements r_outer (π / 12) 12 ∧
    (∀ (R θ₀ : ℝ) (n k : ℕ), k < n →
      (ringPlacements R θ₀ n).getD k (0, 0) =
        (R * Real.cos (k * (2 * π / n) + θ₀), R * Real.sin (k * (2 * π / n) + θ₀))) ∧
    (∀ (R θ₀ : ℝ) (n : ℕ), (ringPlacements R θ₀ n).length = n) ∧
    pinPlacements.length = 18 := by
  refine ⟨pinPlacements_eq, fun R θ₀ n k h => ringPlacements_getD R θ₀ n k h,
    ringPlacements_length, ?_⟩
  rw [pinPlacements_eq, List.length_append, ringPlacements_length, ringPlacements_length]

/-- C5 witness: pin 2 of a 3-pin ring of radius 1 and offset 0 sits at
angle `2·(2π/3)`. -/
theorem C5_placements_witness :
    (ringPlacements 1 0 3).getD 2 (0, 0) =
      (1 * Real.cos ((2 : ℕ) * (2 * π / (3 : ℕ)) + 0),
       1 * Real.sin ((2 : ℕ) * (2 * π / (3 : ℕ)) + 0)) :=
  C5_placements.2.1 1 0 3 2 (by norm_num)

/-- C6: after the placement loop the channel cell's region is its initial
region intersected with the complement of the union of the 18 pin regions;
in particular it is disjoint from every pin's region. -/
theorem C6_channel_region :
    channelRegionFinal = channelRegion₀ ∩ (⋃ c ∈ pinPlacements, pinRegion c.1 c.2)ᶜ ∧
    pinPlacements.Forall fun c => Disjoint channelRegionFinal (pinRegion c.1 c.2) := by
  have h : channelRegionFinal = channelRegion₀ ∩ (⋃ c ∈ pinPlacements, pinRegion c.1 c.2)ᶜ :=
    foldl_subtract_eq pinPlacements channelRegion₀
  refine ⟨h, List.forall_iff_forall_mem.mpr fun c hc => ?_⟩
  rw [h, Set.disjoint_left]
  rintro p ⟨-, hp⟩ hpc
  exact hp (Set.mem_biUnion hc hpc)

/-- C1: every pair of distinct pin centers among the 18 placements is at
Euclidean distance at least `2·r_element`, so no two pin footprints of
radius `r_element` overlap. -/
theorem C1_no_overlap :
    pinPlacements.Pairwise fun p q =>
      2 * r_element ≤ Real.sqrt ((p.1 - q.1) ^ 2 + (p.2 - q.2) ^ 2) := by
  rw [pinPlacements_eq, List.pairwise_append]
  refine ⟨pairwise_ring _ _ _ inner_ring_bound, pairwise_ring _ _ _ outer_ring_bound, ?_⟩
  intro p hp q hq
  simp only [ringPlacements, List.mem_map, List.mem_range] at hp hq
  obtain ⟨a, -, rfl⟩ := hp
  obtain ⟨b, -, rfl⟩ := hq
  apply cross_sep (by linarith [r_inner_lb])
  rw [r_outer_val, show r_element = 0.68 from rfl]
  linarith [r_inner_ub]

/-- C10: every pin footprint lies in the annulus between the carrier rod
and the channel wall: the distance of each center from the origin minus
`r_element` exceeds the rod outer radius `0.7625`, and that distance plus
`r_element` is at most the channel cylinder radius `4.5`. -/
theorem C10_annulus :
    pinPlacements.Forall fun c =>
      0.7625 < Real.sqrt (c.1 ^ 2 + c.2 ^ 2) - r_element ∧
      Real.sqrt (c.1 ^ 2 + c.2 ^ 2) + r_element ≤ 4.5 := by
  rw [List.forall_iff_forall_mem]
  intro c hc
  rw [pinPlacements_eq, List.mem_append] at hc
  have he : r_element = 0.68 := rfl
  rcases hc with hc | hc
  · simp only [ringPlacements, List.mem_map, List.mem_range] at hc
    obtain ⟨k, -, rfl⟩ := hc
    rw [polar_norm _ _ (by linarith [r_inner_lb] : (0:ℝ) ≤ r_inner), he]
    constructor
    · linarith [r_inner_lb]
    · linarith [r_inner_ub]
  · simp only [ringPlacements, List.mem_map, List.mem_range] at hc
    obtain ⟨k, -, rfl⟩ := hc
    rw [polar_norm _ _ (by rw [r_outer_val]; norm_num : (0:ℝ) ≤ r_outer), he, r_outer_val]
    norm_num

end RBMK
